import Mathlib

/-
  Verification development for the `ini` package (ini.go): a streaming
  INI-file parser that turns input lines into comment, section, and
  key-value events.

  Shallow embedding conventions:
  * Go strings are modelled as `List Char` (`Str`).
  * `bufio.Scanner` line splitting is outside the core contract; `Parse`
    takes the list of physical lines directly.
  * `unicode.IsSpace` is modelled on the Latin-1 range (the code points Go
    enumerates explicitly); the Unicode `White_Space` table above U+00FF is
    not modelled, and no claim involves such characters.
  * Handler callbacks are modelled in two layers: `runLines` computes the
    event trace a never-failing handler observes, and `runLinesH` threads an
    arbitrary (possibly stateful, history-dependent) handler that may fail,
    mirroring the `if err := ...; err != nil { return err }` chains in Go.
-/

abbrev Str := List Char

/-- `unicode.IsSpace` restricted to the Latin-1 code points Go lists
explicitly: `\t`, `\n`, `\v`, `\f`, `\r`, space, NEL (U+0085), NBSP (U+00A0). -/
def goIsSpace (c : Char) : Bool :=
  c = ' ' || c = '\t' || c = '\n' || c = '\x0b' || c = '\x0c' || c = '\r' ||
  c = '\u0085' || c = '\u00A0'

/-- Left half of `strings.TrimSpace`. -/
def trimLeft (s : Str) : Str := s.dropWhile goIsSpace

/-- Right half of `strings.TrimSpace`. -/
def trimRight : Str → Str
  | [] => []
  | c :: cs =>
    match trimRight cs with
    | [] => if goIsSpace c then [] else [c]
    | r => c :: r

/-- `strings.TrimSpace`: remove leading and trailing whitespace. -/
def trimSpace (s : Str) : Str := trimRight (trimLeft s)

/-- Accumulator-based worker for `strings.Fields`; `acc` holds the current
word reversed. -/
def fieldsAux (acc : Str) : Str → List Str
  | [] => if acc = [] then [] else [acc.reverse]
  | c :: cs =>
    if goIsSpace c then
      if acc = [] then fieldsAux [] cs else acc.reverse :: fieldsAux [] cs
    else fieldsAux (c :: acc) cs

/-- `strings.Fields`: the maximal runs of non-whitespace characters. -/
def fields (s : Str) : List Str := fieldsAux [] s

/-- `strings.Join` with separator `" "`. -/
def joinSp : List Str → Str
  | [] => []
  | [w] => w
  | w :: ws => w ++ ' ' :: joinSp ws

/-- `cleanKey` from ini.go: `strings.Join(strings.Fields(key), " ")`. -/
def cleanKey (key : Str) : Str := joinSp (fields key)

/-- `strings.Index(s, "=")` packaged as a split at the first `=`:
`some (before, after)` when `=` occurs, `none` otherwise. -/
def splitEq : Str → Option (Str × Str)
  | [] => none
  | c :: cs =>
    if c = '=' then some ([], cs)
    else
      match splitEq cs with
      | none => none
      | some (l, r) => some (c :: l, r)

/-- `strings.ContainsAny(s, "[]")`. -/
def hasBracket (s : Str) : Bool := s.any fun c => c = '[' || c = ']'

/-- `Location` from ini.go: 1-based line number and most recent section
name (empty if none). -/
structure Location where
  Line : Nat
  Section : Str
deriving DecidableEq, Repr

/-- `SyntaxError` from ini.go (its embedded `Location`, `Desc`, `Key`). -/
structure SyntaxError where
  loc : Location
  Desc : Str
  Key : Str
deriving DecidableEq, Repr

def msgUnclosedHeader : Str := "unclosed section header".data
def msgInvalidSection : Str := "invalid section name".data
def msgEmptyKey : Str := "empty key".data

/-- One callback invocation on the `Handler`: `h.comment`, `h.section`
(constructor `sectionEv`, since `section` is a Lean keyword), `h.keyValue`. -/
inductive Event where
  | comment (loc : Location) (text : Str)
  | sectionEv (loc : Location) (name : Str)
  | keyValue (loc : Location) (key : Str) (values : List Str)
deriving DecidableEq, Repr

/-- The scanner's per-call state in `Parse`: current location `loc`
(`loc.Line` is incremented at the top of the loop, `loc.Section` holds the
most recent section name), plus the pending-key accumulator `keyLoc`,
`curKey` (`[]` plays the role of Go's `""` sentinel: no pending key) and
`values`.  That a single `curKey`/`values` slot exists makes "at most one
pending key at any time" structural. -/
structure St where
  loc : Location
  keyLoc : Location
  curKey : Str
  values : List Str
deriving DecidableEq, Repr

/-- `loc.Line++` at the top of the scan loop. -/
def bumpLine (s : St) : St :=
  { s with loc := { s.loc with Line := s.loc.Line + 1 } }

/-- The events produced by `emit` in ini.go: nothing when no key is
pending, otherwise one key-value event at `keyLoc`. -/
def emitEvents (s : St) : List Event :=
  if s.curKey = [] then [] else [Event.keyValue s.keyLoc s.curKey s.values]

/-- The state reset performed by `emit`'s deferred function. -/
def clearPending (s : St) : St := { s with curKey := [], values := [] }

/-- The body of the scan loop in `Parse` (ini.go lines 169-241), for one
input line: the events delivered on this line in order, and the successor
state — or a `SyntaxError`.  On an erroneous line Go returns before any
callback, so the error case carries no events. -/
def stepLine (s0 : St) (text : Str) : Except SyntaxError (List Event × St) :=
  let s := bumpLine s0
  let clean := trimSpace text
  if clean = [] then Except.ok ([], s)
  else
    let isIndented := text.head? = some ' ' ∨ text.head? = some '\t'
    if clean.head? = some ';' then
      Except.ok (emitEvents s ++ [Event.comment s.loc text], clearPending s)
    else if clean.head? = some '[' then
      if clean.getLast? ≠ some ']' then
        Except.error ⟨s.loc, msgUnclosedHeader, clean.tail⟩
      else
        let name := cleanKey clean.tail.dropLast
        if name = [] ∨ hasBracket name then
          Except.error ⟨s.loc, msgInvalidSection, name⟩
        else
          Except.ok (emitEvents s ++ [Event.sectionEv s.loc name],
            { clearPending s with loc := { s.loc with Section := name } })
    else
      match splitEq clean with
      | none =>
        if isIndented ∧ s.curKey ≠ [] then
          if s.values = [[]] then Except.ok ([], { s with values := [clean] })
          else Except.ok ([], { s with values := s.values ++ [clean] })
        else
          Except.ok (emitEvents s ++ [Event.keyValue s.loc (cleanKey clean) [[]]],
            clearPending s)
      | some (l, r) =>
        let key := cleanKey l
        if key = [] then Except.error ⟨s.loc, msgEmptyKey, []⟩
        else
          let value := trimSpace r
          if key = s.curKey then
            Except.ok ([], { s with values := s.values ++ [value] })
          else
            Except.ok (emitEvents s,
              { s with keyLoc := s.loc, curKey := key, values := [value] })

/-- The scan loop of `Parse` with the never-failing handler: the full event
trace (callbacks in order) and the syntax error, if any.  The trailing
`emit` after the loop is the `[]` case. -/
def runLines (s : St) : List Str → List Event × Option SyntaxError
  | [] => (emitEvents s, none)
  | l :: ls =>
    match stepLine s l with
    | Except.error e => ([], some e)
    | Except.ok (evs, s') =>
      let r := runLines s' ls
      (evs ++ r.1, r.2)

/-- Go's zero-valued `loc`, `keyLoc`, `curKey`, `values` at entry. -/
def initSt : St := ⟨⟨0, []⟩, ⟨0, []⟩, [], []⟩

/-- `Parse` observed through a handler that never fails: the sequence of
callbacks it receives, and the terminal syntax error if any. -/
def Parse (lines : List Str) : List Event × Option SyntaxError :=
  runLines initSt lines

/-- A caller-supplied handler: given the call history so far (which lets a
Go handler closure be stateful) and the current event, optionally report an
error, as a Go callback returning non-nil does. -/
def GoHandler (ε : Type) := List Event → Event → Option ε

/-- Feed events one at a time to the handler, as the
`if err := h.foo(...); err != nil { return err }` chains do: stop at the
first failing call.  Returns the calls actually made (the failing one
included) and the error, if any. -/
def deliver {ε : Type} (h : GoHandler ε) : List Event → List Event → List Event × Option ε
  | _, [] => ([], none)
  | hist, ev :: evs =>
    match h hist ev with
    | some e => ([ev], some e)
    | none =>
      let r := deliver h (hist ++ [ev]) evs
      (ev :: r.1, r.2)

/-- The two ways `Parse` can fail: a syntax error, or an error returned by
a handler callback (propagated verbatim). -/
inductive ParseErr (ε : Type) where
  | syntaxErr (e : SyntaxError)
  | handlerErr (e : ε)
deriving DecidableEq, Repr

/-- The scan loop of `Parse` with a real handler `h` threaded through:
identical line classification, but every callback may abort the scan. -/
def runLinesH {ε : Type} (h : GoHandler ε) :
    List Event → St → List Str → List Event × Option (ParseErr ε)
  | hist, s, [] =>
    let d := deliver h hist (emitEvents s)
    (d.1, d.2.map ParseErr.handlerErr)
  | hist, s, l :: ls =>
    match stepLine s l with
    | Except.error e => ([], some (ParseErr.syntaxErr e))
    | Except.ok (evs, s') =>
      let d := deliver h hist evs
      match d.2 with
      | some e => (d.1, some (ParseErr.handlerErr e))
      | none =>
        let r := runLinesH h (hist ++ evs) s' ls
        (evs ++ r.1, r.2)

/-- `Parse` with a fallible handler: the callbacks made, and the terminal
error, if any. -/
def ParseH {ε : Type} (h : GoHandler ε) (lines : List Str) :
    List Event × Option (ParseErr ε) :=
  runLinesH h [] initSt lines

/-- Modelled from the spec (§4.1, "Whitespace normalization"): collapse
every maximal run of whitespace characters into a single ASCII space.
Together with `trimSpace` below this is the spec's description of the
normalization; `cleanKey` is the source's implementation. -/
def collapseWs : Str → Str
  | [] => []
  | [c] => if goIsSpace c then [' '] else [c]
  | c :: d :: cs =>
    if goIsSpace c then
      if goIsSpace d then collapseWs (d :: cs) else ' ' :: collapseWs (d :: cs)
    else c :: collapseWs (d :: cs)

/-- Modelled from the spec: "collapse every maximal run of whitespace
characters into a single ASCII space, and trim leading/trailing
whitespace". -/
def specNormalizeKey (s : Str) : Str := trimSpace (collapseWs s)

/-- A line the scanner skips: blank after trimming. -/
def isBlankLine (l : Str) : Bool := (trimSpace l).isEmpty

/-- Its negation, for filtering. -/
def nonBlank (l : Str) : Bool := !(trimSpace l).isEmpty

/-- A continuation line as classified by the scan loop: raw text indented,
trimmed text non-blank, not a comment, not a section header, no `=`. -/
def IsContLine (l : Str) : Prop :=
  (l.head? = some ' ' ∨ l.head? = some '\t') ∧
  trimSpace l ≠ [] ∧
  (trimSpace l).head? ≠ some ';' ∧
  (trimSpace l).head? ≠ some '[' ∧
  splitEq (trimSpace l) = none

instance (l : Str) : Decidable (IsContLine l) := by
  unfold IsContLine; infer_instance

/-- The continuation update on the pending value list (ini.go lines
207-211): replace a lone empty value, otherwise append. -/
def contStep (vs : List Str) (c : Str) : List Str :=
  if vs = [[]] then [c] else vs ++ [c]

/-- The data-model invariant: when a key is pending its value list is
non-empty. -/
def PendingInv (s : St) : Prop := s.curKey ≠ [] → s.values ≠ []

/-- A `key=value` line as classified by the scan loop: its trimmed text is
`k` followed by the first `=` followed by `v`, with a non-empty key part
that does not make the line a comment or a section header. -/
def KVLine (l k v : Str) : Prop :=
  trimSpace l = k ++ '=' :: v ∧ k ≠ [] ∧
  k.head? ≠ some ';' ∧ k.head? ≠ some '[' ∧ '=' ∉ k

instance (l k v : Str) : Decidable (KVLine l k v) := by
  unfold KVLine; infer_instance

example :
    Parse ["a=".data, " b".data, "".data, " c".data, " d".data] =
      ([Event.keyValue ⟨1, []⟩ "a".data ["b".data, "c".data, "d".data]], none) := by
  decide

example :
    Parse ["a=".data, " b".data, "c=".data, "d".data] =
      ([Event.keyValue ⟨1, []⟩ "a".data ["b".data],
        Event.keyValue ⟨3, []⟩ "c".data ["".data],
        Event.keyValue ⟨4, []⟩ "d".data ["".data]], none) := by
  decide

example :
    Parse ["[alpha]".data, " [bravo]".data] =
      ([Event.sectionEv ⟨1, []⟩ "alpha".data,
        Event.sectionEv ⟨2, "alpha".data⟩ "bravo".data], none) := by
  decide

/-! ### Basic lemmas about the string primitives -/

theorem trimLeft_cons_sp {c : Char} (h : goIsSpace c = true) (cs : Str) :
    trimLeft (c :: cs) = trimLeft cs := by
  simp [trimLeft, List.dropWhile_cons, h]

theorem trimLeft_cons_ns {c : Char} (h : goIsSpace c = false) (cs : Str) :
    trimLeft (c :: cs) = c :: cs := by
  simp [trimLeft, List.dropWhile_cons, h]

theorem trimRight_cons_ns {c : Char} (h : goIsSpace c = false) (cs : Str) :
    trimRight (c :: cs) = c :: trimRight cs := by
  cases htr : trimRight cs with
  | nil => simp only [trimRight]; rw [htr]; simp [h]
  | cons x xs => simp only [trimRight]; rw [htr]

theorem trimRight_cons_of_ne {cs : Str} {y : Char} {ys : List Char} (c : Char)
    (h : trimRight cs = y :: ys) : trimRight (c :: cs) = c :: y :: ys := by
  simp only [trimRight]
  rw [h]

theorem trimSpace_cons_sp {c : Char} (h : goIsSpace c = true) (cs : Str) :
    trimSpace (c :: cs) = trimSpace cs := by
  simp [trimSpace, trimLeft_cons_sp h]

theorem trimLeft_head_ns : ∀ {s : Str} {c : Char} {cs : Str},
    trimLeft s = c :: cs → goIsSpace c = false := by
  intro s
  induction s with
  | nil => intro c cs h; simp [trimLeft] at h
  | cons d ds ih =>
    intro c cs h
    by_cases hd : goIsSpace d
    · exact ih (by rwa [trimLeft_cons_sp hd] at h)
    · rw [trimLeft_cons_ns (by simpa using hd)] at h
      cases h; simpa using hd

theorem trimRight_head : ∀ {s : Str} {c : Char} {cs : Str},
    trimRight s = c :: cs → ∃ ds, s = c :: ds := by
  intro s
  induction s with
  | nil => intro c cs h; simp [trimRight] at h
  | cons d ds _ =>
    intro c cs h
    unfold trimRight at h
    revert h
    cases htr : trimRight ds with
    | nil =>
      by_cases hd : goIsSpace d <;> intro h <;> simp [hd] at h
      exact ⟨ds, by rw [h.1]⟩
    | cons x xs => intro h; cases h; exact ⟨ds, rfl⟩

theorem trimSpace_head_ns {s : Str} {c : Char} {cs : Str}
    (h : trimSpace s = c :: cs) : goIsSpace c = false := by
  unfold trimSpace at h
  obtain ⟨ds, hds⟩ := trimRight_head h
  exact trimLeft_head_ns hds

theorem fieldsAux_word : ∀ (cs acc : Str), acc ≠ [] →
    fieldsAux acc cs =
      (acc.reverse ++ cs.takeWhile (fun c => !goIsSpace c)) ::
        fieldsAux [] (cs.dropWhile (fun c => !goIsSpace c)) := by
  intro cs
  induction cs with
  | nil => intro acc hacc; simp [fieldsAux, hacc]
  | cons c cs ih =>
    intro acc hacc
    by_cases hc : goIsSpace c
    · simp [fieldsAux, hc, hacc, List.takeWhile_cons, List.dropWhile_cons]
    · have hc' : goIsSpace c = false := by simpa using hc
      rw [show fieldsAux acc (c :: cs) = fieldsAux (c :: acc) cs from by
            simp [fieldsAux, hc'],
          ih (c :: acc) (by simp)]
      simp [List.takeWhile_cons, List.dropWhile_cons, hc']

theorem fields_nil : fields [] = [] := rfl

theorem fields_cons_sp {c : Char} (h : goIsSpace c = true) (cs : Str) :
    fields (c :: cs) = fields cs := by
  simp [fields, fieldsAux, h]

theorem fields_cons_ns {c : Char} (h : goIsSpace c = false) (cs : Str) :
    fields (c :: cs) =
      (c :: cs.takeWhile (fun c => !goIsSpace c)) ::
        fields (cs.dropWhile (fun c => !goIsSpace c)) := by
  simp only [fields, fieldsAux, h]
  rw [fieldsAux_word cs [c] (by simp)]
  simp [fields]

theorem cleanKey_cons_ns {c : Char} (h : goIsSpace c = false) (cs : Str) :
    ∃ t, cleanKey (c :: cs) = c :: t := by
  unfold cleanKey
  rw [fields_cons_ns h]
  cases hfs : fields (cs.dropWhile (fun c => !goIsSpace c)) with
  | nil => exact ⟨cs.takeWhile (fun c => !goIsSpace c), by simp [joinSp]⟩
  | cons f fs =>
    exact ⟨cs.takeWhile (fun c => !goIsSpace c) ++ ' ' :: joinSp (f :: fs),
      by simp [joinSp]⟩

theorem splitEq_not_mem {s : Str} (h : '=' ∉ s) : splitEq s = none := by
  induction s with
  | nil => rfl
  | cons c cs ih =>
    simp only [List.mem_cons, not_or] at h
    have hc : ¬c = '=' := fun hc => h.1 hc.symm
    simp [splitEq, hc, ih h.2]

theorem splitEq_append {k : Str} (v : Str) (h : '=' ∉ k) :
    splitEq (k ++ '=' :: v) = some (k, v) := by
  induction k with
  | nil => simp [splitEq]
  | cons c cs ih =>
    simp only [List.mem_cons, not_or] at h
    have hc : ¬c = '=' := fun hc => h.1 hc.symm
    simp [splitEq, hc, ih h.2]

/-! ### Branch lemmas for `stepLine` -/

theorem emitEvents_bump (s : St) : emitEvents (bumpLine s) = emitEvents s := rfl

theorem stepLine_blank (s : St) {text : Str} (h : trimSpace text = []) :
    stepLine s text = Except.ok ([], bumpLine s) := by
  simp [stepLine, h]

theorem stepLine_comment (s : St) {text : Str}
    (h : (trimSpace text).head? = some ';') :
    stepLine s text =
      Except.ok (emitEvents s ++ [Event.comment (bumpLine s).loc text],
        clearPending (bumpLine s)) := by
  have hne : trimSpace text ≠ [] := by
    intro hnil; rw [hnil] at h; simp at h
  simp [stepLine, hne, h, emitEvents_bump]

theorem stepLine_cont (s : St) {text : Str}
    (hcont : IsContLine text) (hkey : s.curKey ≠ []) :
    stepLine s text =
      Except.ok ([], { bumpLine s with values := contStep s.values (trimSpace text) }) := by
  obtain ⟨hin, hne, hsc, hbr, hsp⟩ := hcont
  simp [stepLine, bumpLine, contStep, hne, hsc, hbr, hsp, hin, hkey]
  split <;> rfl

theorem stepLine_bare (s : St) {text : Str}
    (hne : trimSpace text ≠ [])
    (hsc : (trimSpace text).head? ≠ some ';')
    (hbr : (trimSpace text).head? ≠ some '[')
    (hsp : splitEq (trimSpace text) = none)
    (hnc : ¬((text.head? = some ' ' ∨ text.head? = some '\t') ∧ s.curKey ≠ [])) :
    stepLine s text =
      Except.ok (emitEvents s ++
          [Event.keyValue (bumpLine s).loc (cleanKey (trimSpace text)) [[]]],
        clearPending (bumpLine s)) := by
  simp [stepLine, bumpLine, clearPending, emitEvents, hne, hsc, hbr, hsp, hnc]

theorem stepLine_kv (s : St) {text k v : Str}
    (ht : trimSpace text = k ++ '=' :: v)
    (hk : k ≠ []) (h1 : k.head? ≠ some ';') (h2 : k.head? ≠ some '[')
    (he : '=' ∉ k) :
    stepLine s text =
      if cleanKey k = s.curKey then
        Except.ok ([], { bumpLine s with values := s.values ++ [trimSpace v] })
      else
        Except.ok (emitEvents s,
          { bumpLine s with
              keyLoc := (bumpLine s).loc
              curKey := cleanKey k
              values := [trimSpace v] }) := by
  obtain ⟨c, k', rfl⟩ : ∃ c k', k = c :: k' := by
    cases k with
    | nil => exact absurd rfl hk
    | cons c k' => exact ⟨c, k', rfl⟩
  have hcns : goIsSpace c = false := trimSpace_head_ns (by rw [ht]; rfl)
  obtain ⟨t, hck⟩ := cleanKey_cons_ns hcns k'
  have hne : trimSpace text ≠ [] := by rw [ht]; simp
  have hsc : (trimSpace text).head? ≠ some ';' := by
    rw [ht]; simpa using h1
  have hbr : (trimSpace text).head? ≠ some '[' := by
    rw [ht]; simpa using h2
  have hsp : splitEq (trimSpace text) = some (c :: k', v) := by
    rw [ht]; exact splitEq_append v he
  have hkne : cleanKey (c :: k') ≠ [] := by rw [hck]; simp
  simp [stepLine, bumpLine, clearPending, emitEvents, hne, hsc, hbr, hsp, hkne]

theorem stepLine_section (s : St) {text : Str}
    (hbr : (trimSpace text).head? = some '[')
    (hcl : (trimSpace text).getLast? = some ']')
    (hname : cleanKey (trimSpace text).tail.dropLast ≠ [])
    (hnb : hasBracket (cleanKey (trimSpace text).tail.dropLast) = false) :
    stepLine s text =
      Except.ok (emitEvents s ++
          [Event.sectionEv (bumpLine s).loc (cleanKey (trimSpace text).tail.dropLast)],
        { clearPending (bumpLine s) with
            loc := { (bumpLine s).loc with
                      Section := cleanKey (trimSpace text).tail.dropLast } }) := by
  have hne : trimSpace text ≠ [] := by
    intro hnil; rw [hnil] at hbr; simp at hbr
  have hsc : (trimSpace text).head? ≠ some ';' := by
    rw [hbr]; simp
  simp [stepLine, bumpLine, clearPending, emitEvents, hne, hsc, hbr, hcl, hname, hnb]

theorem splitEq_nil : splitEq [] = none := rfl

theorem stepLine_error_iff (s : St) (text : Str) (e : SyntaxError) :
    stepLine s text = Except.error e ↔
      ((trimSpace text).head? = some '[' ∧ (trimSpace text).getLast? ≠ some ']' ∧
        e = ⟨(bumpLine s).loc, msgUnclosedHeader, (trimSpace text).tail⟩) ∨
      ((trimSpace text).head? = some '[' ∧ (trimSpace text).getLast? = some ']' ∧
        (cleanKey (trimSpace text).tail.dropLast = [] ∨
          hasBracket (cleanKey (trimSpace text).tail.dropLast) = true) ∧
        e = ⟨(bumpLine s).loc, msgInvalidSection, cleanKey (trimSpace text).tail.dropLast⟩) ∨
      ((trimSpace text).head? ≠ some ';' ∧ (trimSpace text).head? ≠ some '[' ∧
        (∃ l r, splitEq (trimSpace text) = some (l, r) ∧ cleanKey l = []) ∧
        e = ⟨(bumpLine s).loc, msgEmptyKey, []⟩) := by
  by_cases h0 : trimSpace text = []
  · simp [stepLine, h0, splitEq_nil]
  · by_cases h1 : (trimSpace text).head? = some ';'
    · have hh : (trimSpace text).head? ≠ some '[' := by rw [h1]; simp
      rw [stepLine_comment s h1]
      simp [h1, hh]
    · by_cases h2 : (trimSpace text).head? = some '['
      · by_cases h3 : (trimSpace text).getLast? = some ']'
        · by_cases h4 : cleanKey (trimSpace text).tail.dropLast = [] ∨
              hasBracket (cleanKey (trimSpace text).tail.dropLast) = true
          · simp only [stepLine, bumpLine]
            simp [h0, h1, h2, h3, h4, SyntaxError.mk.injEq, bumpLine]
            constructor
            · intro h; exact h.symm
            · intro h; exact h.symm
          · push_neg at h4
            rw [stepLine_section s h2 h3 h4.1 (by simpa using h4.2)]
            simp [h2, h3, h4.1, h4.2]
        · simp only [stepLine]
          simp [h0, h1, h2, h3, SyntaxError.mk.injEq, bumpLine]
          constructor
          · intro h; exact h.symm
          · intro h; exact h.symm
      · cases hsp : splitEq (trimSpace text) with
        | none =>
          simp only [stepLine]
          simp [h0, h1, h2, hsp]
          split <;> (try split) <;> simp
        | some lr =>
          obtain ⟨l, r⟩ := lr
          by_cases hcl : cleanKey l = []
          · simp only [stepLine]
            simp [h0, h1, h2, hsp, hcl, SyntaxError.mk.injEq, bumpLine]
            constructor
            · intro h; exact h.symm
            · intro h; exact h.symm
          · simp only [stepLine]
            simp [h0, h1, h2, hsp, hcl]
            split <;> simp

/-! ### Lemmas about handler delivery -/

theorem deliver_none {ε : Type} (h : GoHandler ε) :
    ∀ (evs hist : List Event),
      (deliver h hist evs).2 = none → (deliver h hist evs).1 = evs := by
  intro evs
  induction evs with
  | nil => intro hist _; rfl
  | cons ev evs ih =>
    intro hist hnone
    cases hh : h hist ev with
    | some e => simp [deliver, hh] at hnone
    | none =>
      simp only [deliver, hh] at hnone ⊢
      exact congrArg (ev :: ·) (ih (hist ++ [ev]) hnone)

theorem deliver_append {ε : Type} (h : GoHandler ε) :
    ∀ (xs : List Event) (hist ys : List Event),
      deliver h hist (xs ++ ys) =
        match (deliver h hist xs).2 with
        | some _ => deliver h hist xs
        | none => (xs ++ (deliver h (hist ++ xs) ys).1, (deliver h (hist ++ xs) ys).2) := by
  intro xs
  induction xs with
  | nil => intro hist ys; simp [deliver]
  | cons ev xs ih =>
    intro hist ys
    cases hh : h hist ev with
    | some e => simp [deliver, hh]
    | none =>
      simp only [List.cons_append, deliver, hh]
      simp only [List.append_eq]
      rw [ih (hist ++ [ev]) ys]
      cases hd : (deliver h (hist ++ [ev]) xs).2 with
      | some e => simp [deliver, hh, hd]
      | none => simp [deliver, hh, hd, List.append_assoc]

theorem deliver_some {ε : Type} (h : GoHandler ε) :
    ∀ (evs hist : List Event) (e : ε),
      (deliver h hist evs).2 = some e →
        ∃ ds ev, (deliver h hist evs).1 = ds ++ [ev] ∧
          h (hist ++ ds) ev = some e ∧ (deliver h hist evs).1 <+: evs := by
  intro evs
  induction evs with
  | nil => intro hist e hsome; simp [deliver] at hsome
  | cons ev evs ih =>
    intro hist e hsome
    cases hh : h hist ev with
    | some e0 =>
      simp only [deliver, hh] at hsome ⊢
      cases hsome
      exact ⟨[], ev, by simp, by simpa using hh, by simp⟩
    | none =>
      simp only [deliver, hh] at hsome ⊢
      obtain ⟨ds, ev', h1, h2, h3⟩ := ih (hist ++ [ev]) e hsome
      refine ⟨ev :: ds, ev', by simp [h1], ?_, ?_⟩
      · simpa [List.append_assoc] using h2
      · exact List.cons_prefix_cons.mpr ⟨rfl, h3⟩

theorem runLinesH_spec {ε : Type} (h : GoHandler ε) :
    ∀ (ls : List Str) (hist : List Event) (s : St),
      runLinesH h hist s ls =
        match (deliver h hist (runLines s ls).1).2 with
        | some e => ((deliver h hist (runLines s ls).1).1, some (ParseErr.handlerErr e))
        | none => ((runLines s ls).1, (runLines s ls).2.map ParseErr.syntaxErr) := by
  intro ls
  induction ls with
  | nil =>
    intro hist s
    simp only [runLinesH, runLines]
    cases hd : (deliver h hist (emitEvents s)).2 with
    | some e => simp [hd]
    | none => simp [hd, deliver_none h _ _ hd]
  | cons l ls ih =>
    intro hist s
    cases hst : stepLine s l with
    | error e => simp [runLinesH, runLines, hst, deliver]
    | ok p =>
      obtain ⟨evs, s'⟩ := p
      simp only [runLinesH, runLines, hst]
      rw [deliver_append h evs hist (runLines s' ls).1]
      cases hd : (deliver h hist evs).2 with
      | some e => simp [hd]
      | none =>
        have hdel : (deliver h hist evs).1 = evs := deliver_none h _ _ hd
        rw [ih (hist ++ evs) s']
        cases hd2 : (deliver h (hist ++ evs) (runLines s' ls).1).2 with
        | some e2 => simp [hd, hd2, hdel]
        | none => simp [hd, hd2, hdel]

theorem stepLine_cases (s : St) (text : Str) {evs : List Event} {s' : St}
    (hst : stepLine s text = Except.ok (evs, s')) :
    (evs = [] ∧ s' = bumpLine s) ∨
    (evs = emitEvents s ++ [Event.comment (bumpLine s).loc text] ∧
      s' = clearPending (bumpLine s)) ∨
    (∃ name, name ≠ [] ∧
      evs = emitEvents s ++ [Event.sectionEv (bumpLine s).loc name] ∧
      s' = { clearPending (bumpLine s) with
              loc := { (bumpLine s).loc with Section := name } }) ∨
    (evs = [] ∧ s.curKey ≠ [] ∧
      s' = { bumpLine s with values := contStep s.values (trimSpace text) }) ∨
    (∃ k, evs = emitEvents s ++ [Event.keyValue (bumpLine s).loc k [[]]] ∧
      s' = clearPending (bumpLine s)) ∨
    (∃ v, evs = [] ∧ s.curKey ≠ [] ∧
      s' = { bumpLine s with values := s.values ++ [v] }) ∨
    (∃ k v, k ≠ [] ∧ k ≠ s.curKey ∧ evs = emitEvents s ∧
      s' = { bumpLine s with
              keyLoc := (bumpLine s).loc
              curKey := k
              values := [v] }) := by
  by_cases h0 : trimSpace text = []
  · rw [stepLine_blank s h0] at hst
    simp only [Except.ok.injEq, Prod.mk.injEq] at hst
    exact Or.inl ⟨hst.1.symm, hst.2.symm⟩
  · by_cases h1 : (trimSpace text).head? = some ';'
    · rw [stepLine_comment s h1] at hst
      simp only [Except.ok.injEq, Prod.mk.injEq] at hst
      exact Or.inr (Or.inl ⟨hst.1.symm, hst.2.symm⟩)
    · by_cases h2 : (trimSpace text).head? = some '['
      · by_cases h3 : (trimSpace text).getLast? = some ']'
        · by_cases h4 : cleanKey (trimSpace text).tail.dropLast = [] ∨
              hasBracket (cleanKey (trimSpace text).tail.dropLast) = true
          · exfalso
            revert hst
            simp only [stepLine]
            simp [h0, h1, h2, h3, h4]
          · push_neg at h4
            rw [stepLine_section s h2 h3 h4.1 (by simpa using h4.2)] at hst
            simp only [Except.ok.injEq, Prod.mk.injEq] at hst
            exact Or.inr (Or.inr (Or.inl
              ⟨cleanKey (trimSpace text).tail.dropLast, h4.1, hst.1.symm, hst.2.symm⟩))
        · exfalso
          revert hst
          simp only [stepLine]
          simp [h0, h1, h2, h3]
      · cases hsp : splitEq (trimSpace text) with
        | none =>
          by_cases hic : (text.head? = some ' ' ∨ text.head? = some '\t') ∧ s.curKey ≠ []
          · have := stepLine_cont s ⟨hic.1, h0, h1, h2, hsp⟩ hic.2
            rw [this] at hst
            simp only [Except.ok.injEq, Prod.mk.injEq] at hst
            exact Or.inr (Or.inr (Or.inr (Or.inl ⟨hst.1.symm, hic.2, hst.2.symm⟩)))
          · rw [stepLine_bare s h0 h1 h2 hsp hic] at hst
            simp only [Except.ok.injEq, Prod.mk.injEq] at hst
            exact Or.inr (Or.inr (Or.inr (Or.inr (Or.inl
              ⟨cleanKey (trimSpace text), hst.1.symm, hst.2.symm⟩))))
        | some lr =>
          obtain ⟨l, r⟩ := lr
          by_cases hcl : cleanKey l = []
          · exfalso
            revert hst
            simp only [stepLine]
            simp [h0, h1, h2, hsp, hcl]
          · by_cases hsame : cleanKey l = s.curKey
            · have hkey : s.curKey ≠ [] := hsame ▸ hcl
              have : stepLine s text =
                  Except.ok ([], { bumpLine s with values := s.values ++ [trimSpace r] }) := by
                simp only [stepLine]
                simp [h0, h1, h2, hsp, hcl, hsame, hkey, bumpLine]
              rw [this] at hst
              simp only [Except.ok.injEq, Prod.mk.injEq] at hst
              exact Or.inr (Or.inr (Or.inr (Or.inr (Or.inr (Or.inl
                ⟨trimSpace r, hst.1.symm, hkey, hst.2.symm⟩)))))
            · have : stepLine s text =
                  Except.ok (emitEvents s,
                    { bumpLine s with
                        keyLoc := (bumpLine s).loc
                        curKey := cleanKey l
                        values := [trimSpace r] }) := by
                simp only [stepLine]
                simp [h0, h1, h2, hsp, hcl, hsame, emitEvents, bumpLine]
              rw [this] at hst
              simp only [Except.ok.injEq, Prod.mk.injEq] at hst
              exact Or.inr (Or.inr (Or.inr (Or.inr (Or.inr (Or.inr
                ⟨cleanKey l, trimSpace r, hcl, hsame, hst.1.symm, hst.2.symm⟩)))))

theorem emitEvents_mem {s : St} {loc : Location} {k : Str} {vs : List Str}
    (h : Event.keyValue loc k vs ∈ emitEvents s) :
    loc = s.keyLoc ∧ k = s.curKey ∧ vs = s.values ∧ s.curKey ≠ [] := by
  by_cases hc : s.curKey = []
  · simp [emitEvents, hc] at h
  · simp only [emitEvents, if_neg hc, List.mem_singleton, Event.keyValue.injEq] at h
    exact ⟨h.1, h.2.1, h.2.2, hc⟩

theorem contStep_ne_nil (vs : List Str) (c : Str) : contStep vs c ≠ [] := by
  unfold contStep
  split <;> simp

theorem stepLine_pendingInv {s : St} {text : Str} {evs : List Event} {s' : St}
    (hst : stepLine s text = Except.ok (evs, s')) (hinv : PendingInv s) :
    PendingInv s' := by
  rcases stepLine_cases s text hst with
    ⟨_, rfl⟩ | ⟨_, rfl⟩ | ⟨name, _, _, rfl⟩ | ⟨_, _, rfl⟩ | ⟨k, _, rfl⟩ |
    ⟨v, _, _, rfl⟩ | ⟨k, v, _, _, _, rfl⟩
  · exact hinv
  · intro h; exact absurd rfl h
  · intro h; exact absurd rfl h
  · intro _; exact contStep_ne_nil _ _
  · intro h; exact absurd rfl h
  · intro _; simp
  · intro _; simp

theorem stepLine_kv_values_ne {s : St} {text : Str} {evs : List Event} {s' : St}
    (hst : stepLine s text = Except.ok (evs, s')) (hinv : PendingInv s) :
    ∀ loc k vs, Event.keyValue loc k vs ∈ evs → vs ≠ [] := by
  intro loc k vs hmem
  rcases stepLine_cases s text hst with
    ⟨he, _⟩ | ⟨he, _⟩ | ⟨name, _, he, _⟩ | ⟨he, _, _⟩ | ⟨k0, he, _⟩ |
    ⟨v, he, _, _⟩ | ⟨k0, v, _, _, he, _⟩ <;> subst he
  · simp at hmem
  · rcases List.mem_append.mp hmem with hm | hm
    · exact (emitEvents_mem hm).2.2.1 ▸ hinv (emitEvents_mem hm).2.2.2
    · simp at hm
  · rcases List.mem_append.mp hmem with hm | hm
    · exact (emitEvents_mem hm).2.2.1 ▸ hinv (emitEvents_mem hm).2.2.2
    · simp at hm
  · simp at hmem
  · rcases List.mem_append.mp hmem with hm | hm
    · exact (emitEvents_mem hm).2.2.1 ▸ hinv (emitEvents_mem hm).2.2.2
    · simp at hm
      rw [hm.2.2]
      simp
  · simp at hmem
  · exact (emitEvents_mem hmem).2.2.1 ▸ hinv (emitEvents_mem hmem).2.2.2

theorem runLines_kv_values_ne :
    ∀ (ls : List Str) (s : St), PendingInv s →
      ∀ loc k vs, Event.keyValue loc k vs ∈ (runLines s ls).1 → vs ≠ [] := by
  intro ls
  induction ls with
  | nil =>
    intro s hinv loc k vs hmem
    simp only [runLines] at hmem
    exact (emitEvents_mem hmem).2.2.1 ▸ hinv (emitEvents_mem hmem).2.2.2
  | cons l ls ih =>
    intro s hinv loc k vs hmem
    cases hst : stepLine s l with
    | error e => simp [runLines, hst] at hmem
    | ok p =>
      obtain ⟨evs, s'⟩ := p
      simp only [runLines, hst] at hmem
      rcases List.mem_append.mp hmem with hm | hm
      · exact stepLine_kv_values_ne hst hinv loc k vs hm
      · exact ih s' (stepLine_pendingInv hst hinv) loc k vs hm

/-! ### Run lemmas for continuation accumulation -/

theorem runLines_conts :
    ∀ (ls : List Str) (s : St), s.curKey ≠ [] →
      (∀ l ∈ ls, (trimSpace l).isEmpty = true ∨ IsContLine l) →
      runLines s ls =
        ([Event.keyValue s.keyLoc s.curKey
            (List.foldl contStep s.values ((ls.filter nonBlank).map trimSpace))], none) := by
  intro ls
  induction ls with
  | nil =>
    intro s hkey _
    simp [runLines, emitEvents, hkey]
  | cons l ls ih =>
    intro s hkey hall
    rcases hall l (List.mem_cons_self l ls) with hbl | hct
    · have hbl' : trimSpace l = [] := by simpa using hbl
      have hstep : runLines s (l :: ls) = runLines (bumpLine s) ls := by
        simp [runLines, stepLine_blank s hbl']
      rw [hstep, ih (bumpLine s) hkey (fun x hx => hall x (List.mem_cons_of_mem l hx))]
      have hnb : nonBlank l = false := by simp [nonBlank, hbl']
      simp [List.filter_cons, hnb, bumpLine]
    · have hne : trimSpace l ≠ [] := hct.2.1
      have hstep : runLines s (l :: ls) =
          runLines { bumpLine s with values := contStep s.values (trimSpace l) } ls := by
        simp [runLines, stepLine_cont s hct hkey]
      rw [hstep, ih { bumpLine s with values := contStep s.values (trimSpace l) }
        hkey (fun x hx => hall x (List.mem_cons_of_mem l hx))]
      have hnb : nonBlank l = true := by simp [nonBlank, hne]
      simp [List.filter_cons, hnb, bumpLine, List.foldl_cons]

theorem foldl_contStep_app :
    ∀ (ds : List Str) (vs : List Str), vs ≠ [] → vs ≠ [[]] →
      List.foldl contStep vs ds = vs ++ ds := by
  intro ds
  induction ds with
  | nil => intro vs _ _; simp
  | cons d ds ih =>
    intro vs hne hne1
    have h1 : contStep vs d = vs ++ [d] := by simp [contStep, hne1]
    have h3 : vs ++ [d] ≠ [[]] := by
      intro hcontra
      have hlen := congrArg List.length hcontra
      simp at hlen
      exact hne hlen
    rw [List.foldl_cons, h1, ih (vs ++ [d]) (by simp) h3]
    simp

theorem foldl_contStep_fresh (cs : List Str) (hne : cs ≠ [])
    (hall : ∀ c ∈ cs, c ≠ []) : List.foldl contStep [[]] cs = cs := by
  cases cs with
  | nil => exact absurd rfl hne
  | cons c cs =>
    rw [List.foldl_cons, show contStep [[]] c = [c] from by simp [contStep],
      foldl_contStep_app cs [c] (by simp)
        (by simpa using hall c (List.mem_cons_self c cs))]
    rfl

/-! ### Key/section-name normalization: `cleanKey` matches the spec -/

theorem dropWhile_head_false (p : Char → Bool) :
    ∀ (l : Str) (a : Char), (l.dropWhile p).head? = some a → p a = false := by
  intro l
  induction l with
  | nil => intro a h; simp [List.dropWhile] at h
  | cons c cs ih =>
    intro a h
    by_cases hc : p c
    · rw [List.dropWhile_cons_of_pos hc] at h; exact ih a h
    · rw [List.dropWhile_cons_of_neg hc] at h
      cases h; simpa using hc

theorem collapseWs_cons_sp :
    ∀ (cs : Str) (c : Char), goIsSpace c = true →
      collapseWs (c :: cs) = ' ' :: collapseWs (cs.dropWhile goIsSpace) := by
  intro cs
  induction cs with
  | nil => intro c h; simp [collapseWs, h, List.dropWhile]
  | cons d ds ih =>
    intro c h
    by_cases hd : goIsSpace d
    · rw [List.dropWhile_cons_of_pos hd, ← ih d hd]
      simp [collapseWs, h, hd]
    · rw [List.dropWhile_cons_of_neg hd]
      simp [collapseWs, h, hd]

theorem collapseWs_cons_ns {c : Char} (h : goIsSpace c = false) (cs : Str) :
    collapseWs (c :: cs) = c :: collapseWs cs := by
  cases cs with
  | nil => simp [collapseWs, h]
  | cons d ds => simp [collapseWs, h]

theorem collapseWs_word :
    ∀ (w rest : Str), (∀ a ∈ w, goIsSpace a = false) →
      collapseWs (w ++ rest) = w ++ collapseWs rest := by
  intro w
  induction w with
  | nil => intro rest _; rfl
  | cons a w ih =>
    intro rest hall
    rw [List.cons_append, collapseWs_cons_ns (hall a (List.mem_cons_self a w)),
      ih rest (fun b hb => hall b (List.mem_cons_of_mem a hb)), List.cons_append]

theorem trimRight_word :
    ∀ (w X : Str), (∀ a ∈ w, goIsSpace a = false) →
      trimRight (w ++ X) = w ++ trimRight X := by
  intro w
  induction w with
  | nil => intro X _; rfl
  | cons a w ih =>
    intro X hall
    have ha : goIsSpace a = false := hall a (List.mem_cons_self a w)
    have hw := ih X (fun b hb => hall b (List.mem_cons_of_mem a hb))
    cases hcase : w ++ trimRight X with
    | nil =>
      obtain ⟨h1, h2⟩ := List.append_eq_nil.mp hcase
      simp only [List.cons_append, trimRight, List.append_eq]
      rw [hw, hcase]
      simp [ha, h1, h2]
    | cons y ys =>
      simp only [List.cons_append, trimRight, List.append_eq]
      rw [hw, hcase]

theorem fields_dropWhile_sp : ∀ s : Str, fields (s.dropWhile goIsSpace) = fields s := by
  intro s
  induction s with
  | nil => rfl
  | cons c cs ih =>
    by_cases hc : goIsSpace c
    · rw [List.dropWhile_cons_of_pos hc, ih, fields_cons_sp hc]
    · rw [List.dropWhile_cons_of_neg hc]

theorem joinSp_cons_ne (c : Char) (w : Str) (fs : List Str) :
    joinSp ((c :: w) :: fs) ≠ [] := by
  cases fs <;> simp [joinSp]

theorem trimRight_collapse_tail :
    ∀ (r : Str),
      (∀ t : Str, t.length ≤ r.length → cleanKey t = trimSpace (collapseWs t)) →
      (∀ d, r.head? = some d → goIsSpace d = true) →
      trimRight (collapseWs r) =
        (if fields r = [] then [] else ' ' :: joinSp (fields r)) := by
  intro r hmain hhd
  cases r with
  | nil => simp [collapseWs, trimRight, fields_nil]
  | cons d r2 =>
    have hd : goIsSpace d = true := hhd d rfl
    rw [collapseWs_cons_sp r2 d hd]
    have hfr : fields (d :: r2) = fields (r2.dropWhile goIsSpace) := by
      rw [fields_cons_sp hd, fields_dropWhile_sp r2]
    cases hr3 : r2.dropWhile goIsSpace with
    | nil =>
      rw [hr3] at hfr
      rw [hfr]
      simp [collapseWs, trimRight, fields_nil, goIsSpace]
    | cons e r4 =>
      have he : goIsSpace e = false :=
        dropWhile_head_false goIsSpace r2 e (by rw [hr3]; rfl)
      have hlen : (e :: r4).length ≤ (d :: r2).length := by
        have h1 : (r2.dropWhile goIsSpace).length ≤ r2.length :=
          (List.dropWhile_sublist goIsSpace).length_le
        rw [hr3] at h1
        simpa using Nat.le_succ_of_le h1
      have hck := hmain (e :: r4) hlen
      rw [collapseWs_cons_ns he, show trimSpace (e :: collapseWs r4) =
            trimRight (e :: collapseWs r4) from by
          simp [trimSpace, trimLeft_cons_ns he]] at hck
      have hfne : joinSp (fields (e :: r4)) ≠ [] := by
        rw [fields_cons_ns he]; exact joinSp_cons_ne _ _ _
      have htr : trimRight (e :: collapseWs r4) = joinSp (fields (e :: r4)) := by
        rw [← hck]; rfl
      have hYne : trimRight (e :: collapseWs r4) ≠ [] := by rw [htr]; exact hfne
      rw [collapseWs_cons_ns he]
      rw [show trimRight (' ' :: e :: collapseWs r4) =
            ' ' :: trimRight (e :: collapseWs r4) from by
          cases hY : trimRight (e :: collapseWs r4) with
          | nil => exact absurd hY hYne
          | cons y ys => exact trimRight_cons_of_ne ' ' hY]
      rw [htr, hfr, hr3]
      have hne : fields (e :: r4) ≠ [] := by rw [fields_cons_ns he]; simp
      simp [hne]

theorem cleanKey_eq_spec_aux :
    ∀ (n : Nat) (s : Str), s.length ≤ n →
      cleanKey s = trimSpace (collapseWs s) := by
  intro n
  induction n with
  | zero =>
    intro s hs
    have hnil : s = [] := List.length_eq_zero.mp (Nat.le_zero.mp hs)
    subst hnil; rfl
  | succ n ih =>
    intro s hs
    cases s with
    | nil => rfl
    | cons c cs =>
      have hcs : cs.length ≤ n := Nat.le_of_succ_le_succ (by simpa using hs)
      by_cases hc : goIsSpace c
      · calc cleanKey (c :: cs)
            = cleanKey (cs.dropWhile goIsSpace) := by
              simp [cleanKey, fields_cons_sp hc, fields_dropWhile_sp]
          _ = trimSpace (collapseWs (cs.dropWhile goIsSpace)) :=
              ih _ (le_trans (List.dropWhile_sublist goIsSpace).length_le hcs)
          _ = trimSpace (collapseWs (c :: cs)) := by
              rw [collapseWs_cons_sp cs c hc,
                trimSpace_cons_sp (show goIsSpace ' ' = true by decide)]
      · have hc' : goIsSpace c = false := by simpa using hc
        have hwall : ∀ a ∈ c :: cs.takeWhile (fun b => !goIsSpace b), goIsSpace a = false := by
          intro a ha
          rcases List.mem_cons.mp ha with rfl | ha
          · exact hc'
          · simpa using List.mem_takeWhile_imp ha
        have hsplit : c :: cs =
            (c :: cs.takeWhile (fun b => !goIsSpace b)) ++
              cs.dropWhile (fun b => !goIsSpace b) := by
          rw [List.cons_append, List.takeWhile_append_dropWhile]
        have hrlen : (cs.dropWhile (fun b => !goIsSpace b)).length ≤ n :=
          le_trans (List.dropWhile_sublist _).length_le hcs
        have htail := trimRight_collapse_tail (cs.dropWhile (fun b => !goIsSpace b))
          (fun t ht => ih t (le_trans ht hrlen))
          (fun d hdd => by
            have := dropWhile_head_false (fun b => !goIsSpace b) cs d hdd
            simpa using this)
        rw [show cleanKey (c :: cs) =
              joinSp ((c :: cs.takeWhile (fun b => !goIsSpace b)) ::
                fields (cs.dropWhile (fun b => !goIsSpace b))) from by
            simp [cleanKey, fields_cons_ns hc']]
        conv_rhs => rw [hsplit]
        rw [collapseWs_word _ _ hwall,
          show trimSpace ((c :: cs.takeWhile (fun b => !goIsSpace b)) ++
              collapseWs (cs.dropWhile (fun b => !goIsSpace b))) =
            trimRight ((c :: cs.takeWhile (fun b => !goIsSpace b)) ++
              collapseWs (cs.dropWhile (fun b => !goIsSpace b))) from by
            simp [trimSpace, List.cons_append, trimLeft_cons_ns hc'],
          trimRight_word _ _ hwall, htail]
        cases hf : fields (cs.dropWhile (fun b => !goIsSpace b)) with
        | nil => simp [joinSp]
        | cons f fs => simp [joinSp]

theorem cleanKey_eq_specNormalizeKey (s : Str) : cleanKey s = specNormalizeKey s :=
  cleanKey_eq_spec_aux s.length s (le_refl _)

/-! ### Claim theorems -/

/-- C10: the empty-initial-value replacement on a continuation line applies
exactly when the pending value list is `[""]`; with `a=`, `a=`, ` b` the
second `a=` appends a second empty value, so the continuation appends and
the single emitted event is `("a", ["", "", "b"])`.  A multi-value key can
therefore contain empty-string values. -/
theorem c10_empty_value_replacement :
    (∀ (s : St) (text : Str), IsContLine text → s.curKey ≠ [] →
      stepLine s text = Except.ok ([],
        { bumpLine s with
            values := if s.values = [[]] then [trimSpace text]
                      else s.values ++ [trimSpace text] })) ∧
    Parse ["a=".data, "a=".data, " b".data] =
      ([Event.keyValue ⟨1, []⟩ "a".data ["".data, "".data, "b".data]], none) := by
  constructor
  · intro s text hct hkey
    rw [stepLine_cont s hct hkey]
    rfl
  · decide

/-- Witness for C10: a pending key `a` with accumulated values `["", ""]`
receives continuation line `" b"` by appending, not replacing. -/
theorem c10_empty_value_replacement_witness :
    stepLine ⟨⟨2, []⟩, ⟨1, []⟩, "a".data, ["".data, "".data]⟩ " b".data =
      Except.ok ([],
        { bumpLine ⟨⟨2, []⟩, ⟨1, []⟩, "a".data, ["".data, "".data]⟩ with
            values := if (["".data, "".data] : List Str) = [[]] then [trimSpace " b".data]
                      else ["".data, "".data] ++ [trimSpace " b".data] }) :=
  c10_empty_value_replacement.1 ⟨⟨2, []⟩, ⟨1, []⟩, "a".data, ["".data, "".data]⟩
    " b".data (by decide) (by decide)

/-- C3 (counterexample evidence): on the comment line `" ; blah"` the
scanner flushes nothing (no pending key) and delivers the comment callback
the RAW line `" ; blah"`, not the trimmed `"; blah"` that the claim (and
`Handler.Comment`'s own documentation, ini.go lines 30-31) promises:
`Parse` passes `text` rather than `clean` at ini.go line 181. -/
theorem c3_comment_text_not_trimmed :
    Parse [" ; blah".data] = ([Event.comment ⟨1, []⟩ " ; blah".data], none) ∧
    trimSpace " ; blah".data = "; blah".data ∧
    " ; blah".data ≠ "; blah".data := by
  decide

/-- C7: `cleanKey` (used for keys and section names) equals the spec's
normalization — collapse each maximal whitespace run to one ASCII space,
then trim — and values are only outer-trimmed, never internally
normalized: `[ charlie   delta\techo ]` names section
`"charlie delta echo"`, while `a    long     key = value   village`
keeps the value's internal spacing. -/
theorem c7_whitespace_normalization :
    (∀ s : Str, cleanKey s = specNormalizeKey s) ∧
    Parse ["[ charlie   delta\techo ]".data] =
      ([Event.sectionEv ⟨1, []⟩ "charlie delta echo".data], none) ∧
    Parse ["a    long     key = value   village".data] =
      ([Event.keyValue ⟨1, []⟩ "a long key".data ["value   village".data]], none) :=
  ⟨cleanKey_eq_specNormalizeKey, by decide, by decide⟩

/-- C9: every key-value event any input ever produces carries a non-empty
value list, and the pending-key invariant (pending key implies non-empty
accumulated values) is preserved by every scan step.  That at most one
pending key exists is structural: the state has a single `curKey` slot. -/
theorem c9_values_invariant :
    (∀ (lines : List Str) (loc : Location) (k : Str) (vs : List Str),
      Event.keyValue loc k vs ∈ (Parse lines).1 → vs ≠ []) ∧
    (∀ (s : St) (text : Str) (evs : List Event) (s' : St),
      PendingInv s → stepLine s text = Except.ok (evs, s') → PendingInv s') := by
  constructor
  · intro lines loc k vs hmem
    exact runLines_kv_values_ne lines initSt (fun h => absurd rfl h) loc k vs hmem
  · intro s text evs s' hinv hst
    exact stepLine_pendingInv hst hinv

/-- Witness for C9: the event emitted for the bare line `"foo"` has the
non-empty value list `[""]`. -/
theorem c9_values_invariant_witness :
    Event.keyValue ⟨1, []⟩ "foo".data ["".data] ∈ (Parse ["foo".data]).1 ∧
    (["".data] : List Str) ≠ [] :=
  ⟨by decide,
    c9_values_invariant.1 ["foo".data] ⟨1, []⟩ "foo".data ["".data] (by decide)⟩

/-- C8: a non-blank line with no `=` that is unindented or has no pending
key flushes any pending group and immediately emits a key-value event with
the normalized trimmed text as key and the single value `""`; the
successor state is cleared, so this bare key is not pending and cannot
receive continuations.  Lone `"foo"` yields `("foo", [""])`. -/
theorem c8_bare_key :
    (∀ (s : St) (text : Str),
      trimSpace text ≠ [] →
      (trimSpace text).head? ≠ some ';' →
      (trimSpace text).head? ≠ some '[' →
      splitEq (trimSpace text) = none →
      ¬((text.head? = some ' ' ∨ text.head? = some '\t') ∧ s.curKey ≠ []) →
      stepLine s text =
        Except.ok (emitEvents s ++
            [Event.keyValue (bumpLine s).loc (cleanKey (trimSpace text)) ["".data]],
          clearPending (bumpLine s)) ∧ (clearPending (bumpLine s)).curKey = []) ∧
    Parse ["foo".data] = ([Event.keyValue ⟨1, []⟩ "foo".data ["".data]], none) := by
  constructor
  · intro s text h1 h2 h3 h4 h5
    exact ⟨stepLine_bare s h1 h2 h3 h4 h5, rfl⟩
  · decide

/-- Witness for C8: the lone unindented line `"foo"` from the initial state. -/
theorem c8_bare_key_witness :
    stepLine initSt "foo".data =
      Except.ok (emitEvents initSt ++
          [Event.keyValue (bumpLine initSt).loc (cleanKey (trimSpace "foo".data)) ["".data]],
        clearPending (bumpLine initSt)) ∧
    (clearPending (bumpLine initSt)).curKey = [] :=
  c8_bare_key.1 initSt "foo".data (by decide) (by decide) (by decide) (by decide)
    (by decide)

/-- C4: a scan step fails with a syntax error exactly when (a) the trimmed
line starts with `[` but does not end with `]` (unclosed-header, offending
text the characters after `[`), (b) it is a bracketed header whose
normalized interior is empty or still contains a bracket (invalid-section,
carrying that name), or (c) it is an `=` line whose normalized left part is
empty (empty-key); each error carries the current 1-based line number
(`Line` is bumped from the previous line's) and the fixed description tag.
The three `∀ rest` conjuncts show the spec's examples and that the error is
fatal: whatever follows the bad line, `Parse` returns exactly that error,
with no further events. -/
theorem c4_syntax_errors :
    (∀ (s : St) (text : Str) (e : SyntaxError),
      stepLine s text = Except.error e ↔
        ((trimSpace text).head? = some '[' ∧ (trimSpace text).getLast? ≠ some ']' ∧
          e = ⟨(bumpLine s).loc, msgUnclosedHeader, (trimSpace text).tail⟩) ∨
        ((trimSpace text).head? = some '[' ∧ (trimSpace text).getLast? = some ']' ∧
          (cleanKey (trimSpace text).tail.dropLast = [] ∨
            hasBracket (cleanKey (trimSpace text).tail.dropLast) = true) ∧
          e = ⟨(bumpLine s).loc, msgInvalidSection,
                cleanKey (trimSpace text).tail.dropLast⟩) ∨
        ((trimSpace text).head? ≠ some ';' ∧ (trimSpace text).head? ≠ some '[' ∧
          (∃ l r, splitEq (trimSpace text) = some (l, r) ∧ cleanKey l = []) ∧
          e = ⟨(bumpLine s).loc, msgEmptyKey, []⟩)) ∧
    (∀ rest : List Str, Parse ("[bad".data :: rest) =
      ([], some ⟨⟨1, []⟩, msgUnclosedHeader, "bad".data⟩)) ∧
    (∀ rest : List Str, Parse ("[[bad name]".data :: rest) =
      ([], some ⟨⟨1, []⟩, msgInvalidSection, "[bad name".data⟩)) ∧
    (∀ rest : List Str, Parse ("= missing key".data :: rest) =
      ([], some ⟨⟨1, []⟩, msgEmptyKey, []⟩)) := by
  refine ⟨stepLine_error_iff, ?_, ?_, ?_⟩
  · intro rest
    simp [Parse, runLines, show stepLine initSt "[bad".data =
      Except.error ⟨⟨1, []⟩, msgUnclosedHeader, "bad".data⟩ from rfl]
  · intro rest
    simp [Parse, runLines, show stepLine initSt "[[bad name]".data =
      Except.error ⟨⟨1, []⟩, msgInvalidSection, "[bad name".data⟩ from rfl]
  · intro rest
    simp [Parse, runLines, show stepLine initSt "= missing key".data =
      Except.error ⟨⟨1, []⟩, msgEmptyKey, []⟩ from rfl]

theorem emitEvents_no_section {s : St} {loc : Location} {name : Str} :
    Event.sectionEv loc name ∉ emitEvents s := by
  by_cases hc : s.curKey = [] <;> simp [emitEvents, hc]

/-- C5: a section event's location carries the PREVIOUS section name (the
scanner state's, updated only after the callback) and the bumped 1-based
line number; a flushed key-value group carries `keyLoc`, which is set to
the current location exactly when its key starts accumulating and is
preserved while that key stays pending (bare-key events instead carry the
current location); the `[user 1]`/`name=`/`role=` example shows lines
1,2,3 with the expected sections. -/
theorem c5_locations :
    (∀ (s : St) (text : Str) (evs : List Event) (s' : St) (loc : Location) (name : Str),
      stepLine s text = Except.ok (evs, s') → Event.sectionEv loc name ∈ evs →
        loc.Section = s.loc.Section ∧ loc.Line = s.loc.Line + 1 ∧
        s'.loc.Section = name) ∧
    (∀ (s : St) (text : Str) (evs : List Event) (s' : St) (loc : Location)
        (k : Str) (vs : List Str),
      stepLine s text = Except.ok (evs, s') → Event.keyValue loc k vs ∈ evs →
        (loc = s.keyLoc ∧ k = s.curKey ∧ vs = s.values) ∨
        (vs = ["".data] ∧ loc = (bumpLine s).loc)) ∧
    (∀ (s : St) (text : Str) (evs : List Event) (s' : St),
      stepLine s text = Except.ok (evs, s') → s'.curKey ≠ [] →
        s'.curKey ≠ s.curKey → s'.keyLoc = (bumpLine s).loc) ∧
    (∀ (s : St) (text : Str) (evs : List Event) (s' : St),
      stepLine s text = Except.ok (evs, s') → s'.curKey = s.curKey →
        s'.keyLoc = s.keyLoc) ∧
    Parse ["[user 1]".data, "name=Alice Jones".data, "role=sender".data] =
      ([Event.sectionEv ⟨1, []⟩ "user 1".data,
        Event.keyValue ⟨2, "user 1".data⟩ "name".data ["Alice Jones".data],
        Event.keyValue ⟨3, "user 1".data⟩ "role".data ["sender".data]], none) := by
  refine ⟨?_, ?_, ?_, ?_, by decide⟩
  · intro s text evs s' loc name hst hmem
    rcases stepLine_cases s text hst with
      ⟨he, hs⟩ | ⟨he, hs⟩ | ⟨nm, hne, he, hs⟩ | ⟨he, _, hs⟩ | ⟨k0, he, hs⟩ |
      ⟨v, he, _, hs⟩ | ⟨k0, v, _, _, he, hs⟩ <;> subst he
    · simp at hmem
    · rcases List.mem_append.mp hmem with hm | hm
      · exact absurd hm emitEvents_no_section
      · simp at hm
    · rcases List.mem_append.mp hmem with hm | hm
      · exact absurd hm emitEvents_no_section
      · simp only [List.mem_singleton, Event.sectionEv.injEq] at hm
        subst hs
        exact ⟨by rw [hm.1]; rfl, by rw [hm.1]; rfl, by simp [bumpLine, clearPending, hm.2]⟩
    · simp at hmem
    · rcases List.mem_append.mp hmem with hm | hm
      · exact absurd hm emitEvents_no_section
      · simp at hm
    · simp at hmem
    · exact absurd hmem emitEvents_no_section
  · intro s text evs s' loc k vs hst hmem
    rcases stepLine_cases s text hst with
      ⟨he, hs⟩ | ⟨he, hs⟩ | ⟨nm, hne, he, hs⟩ | ⟨he, _, hs⟩ | ⟨k0, he, hs⟩ |
      ⟨v, he, _, hs⟩ | ⟨k0, v, _, _, he, hs⟩ <;> subst he
    · simp at hmem
    · rcases List.mem_append.mp hmem with hm | hm
      · exact Or.inl ⟨(emitEvents_mem hm).1, (emitEvents_mem hm).2.1,
          (emitEvents_mem hm).2.2.1⟩
      · simp at hm
    · rcases List.mem_append.mp hmem with hm | hm
      · exact Or.inl ⟨(emitEvents_mem hm).1, (emitEvents_mem hm).2.1,
          (emitEvents_mem hm).2.2.1⟩
      · simp at hm
    · simp at hmem
    · rcases List.mem_append.mp hmem with hm | hm
      · exact Or.inl ⟨(emitEvents_mem hm).1, (emitEvents_mem hm).2.1,
          (emitEvents_mem hm).2.2.1⟩
      · simp only [List.mem_singleton, Event.keyValue.injEq] at hm
        exact Or.inr ⟨hm.2.2, hm.1⟩
    · simp at hmem
    · exact Or.inl ⟨(emitEvents_mem hmem).1, (emitEvents_mem hmem).2.1,
        (emitEvents_mem hmem).2.2.1⟩
  · intro s text evs s' hst h1 h2
    rcases stepLine_cases s text hst with
      ⟨he, hs⟩ | ⟨he, hs⟩ | ⟨nm, hne, he, hs⟩ | ⟨he, _, hs⟩ | ⟨k0, he, hs⟩ |
      ⟨v, he, _, hs⟩ | ⟨k0, v, _, _, he, hs⟩ <;> subst hs
    · exact absurd rfl h2
    · exact absurd rfl h1
    · exact absurd rfl h1
    · exact absurd rfl h2
    · exact absurd rfl h1
    · exact absurd rfl h2
    · rfl
  · intro s text evs s' hst hkeep
    rcases stepLine_cases s text hst with
      ⟨he, hs⟩ | ⟨he, hs⟩ | ⟨nm, hne, he, hs⟩ | ⟨he, _, hs⟩ | ⟨k0, he, hs⟩ |
      ⟨v, he, _, hs⟩ | ⟨k0, v, hk0, hk2, he, hs⟩ <;> subst hs
    · rfl
    · rfl
    · rfl
    · rfl
    · rfl
    · rfl
    · exact absurd hkeep hk2

/-- Witness for C5: the header line `"[a]"` from the initial state emits a
section event at line 1 whose location still carries the empty previous
section, and the successor state's section is `"a"`. -/
theorem c5_locations_witness :
    (⟨1, []⟩ : Location).Section = initSt.loc.Section ∧
    (⟨1, []⟩ : Location).Line = initSt.loc.Line + 1 ∧
    (⟨⟨1, "a".data⟩, ⟨0, []⟩, [], []⟩ : St).loc.Section = "a".data :=
  c5_locations.1 initSt "[a]".data [Event.sectionEv ⟨1, []⟩ "a".data]
    ⟨⟨1, "a".data⟩, ⟨0, []⟩, [], []⟩ ⟨1, []⟩ "a".data rfl (by decide)

theorem KVLine_cleanKey_ne {l k v : Str} (h : KVLine l k v) : cleanKey k ≠ [] := by
  obtain ⟨ht, hk, _, _, _⟩ := h
  obtain ⟨c, k2, rfl⟩ : ∃ c k2, k = c :: k2 := by
    cases k with
    | nil => exact absurd rfl hk
    | cons c k2 => exact ⟨c, k2, rfl⟩
  have hns : goIsSpace c = false := trimSpace_head_ns (s := l) ht
  obtain ⟨t, hck⟩ := cleanKey_cons_ns hns k2
  rw [hck]
  simp

/-- C2: two adjacent `key=value` lines with the same normalized key merge
into one event holding both right-hand sides in order; an intervening
comment flushes the pending group first, and a differing key flushes and
starts a new group, so each yields two separate key-value events.
`a=1` then `a=2` gives one event with values `["1","2"]`. -/
theorem c2_adjacent_same_key :
    (∀ (l1 l2 k1 v1 k2 v2 : Str), KVLine l1 k1 v1 → KVLine l2 k2 v2 →
      cleanKey k1 = cleanKey k2 →
      Parse [l1, l2] =
        ([Event.keyValue ⟨1, []⟩ (cleanKey k1) [trimSpace v1, trimSpace v2]], none)) ∧
    (∀ (l1 c l2 k1 v1 k2 v2 : Str), KVLine l1 k1 v1 → KVLine l2 k2 v2 →
      (trimSpace c).head? = some ';' →
      Parse [l1, c, l2] =
        ([Event.keyValue ⟨1, []⟩ (cleanKey k1) [trimSpace v1],
          Event.comment ⟨2, []⟩ c,
          Event.keyValue ⟨3, []⟩ (cleanKey k2) [trimSpace v2]], none)) ∧
    (∀ (l1 l2 k1 v1 k2 v2 : Str), KVLine l1 k1 v1 → KVLine l2 k2 v2 →
      cleanKey k1 ≠ cleanKey k2 →
      Parse [l1, l2] =
        ([Event.keyValue ⟨1, []⟩ (cleanKey k1) [trimSpace v1],
          Event.keyValue ⟨2, []⟩ (cleanKey k2) [trimSpace v2]], none)) ∧
    Parse ["a=1".data, "a=2".data] =
      ([Event.keyValue ⟨1, []⟩ "a".data ["1".data, "2".data]], none) := by
  refine ⟨?_, ?_, ?_, by decide⟩
  · intro l1 l2 k1 v1 k2 v2 h1 h2 hsame
    have hck1 : cleanKey k1 ≠ [] := KVLine_cleanKey_ne h1
    obtain ⟨ht1, hk1, hs1, hb1, he1⟩ := h1
    obtain ⟨ht2, hk2, hs2, hb2, he2⟩ := h2
    have e1 : stepLine initSt l1 =
        Except.ok (emitEvents initSt,
          { bumpLine initSt with
              keyLoc := (bumpLine initSt).loc
              curKey := cleanKey k1
              values := [trimSpace v1] }) := by
      rw [stepLine_kv initSt ht1 hk1 hs1 hb1 he1,
        if_neg (show ¬cleanKey k1 = initSt.curKey from fun hc => hck1 hc)]
    have e2 : stepLine
        { bumpLine initSt with
            keyLoc := (bumpLine initSt).loc
            curKey := cleanKey k1
            values := [trimSpace v1] } l2 =
        Except.ok ([],
          { bumpLine { bumpLine initSt with
              keyLoc := (bumpLine initSt).loc
              curKey := cleanKey k1
              values := [trimSpace v1] } with
              values := [trimSpace v1] ++ [trimSpace v2] }) := by
      rw [stepLine_kv _ ht2 hk2 hs2 hb2 he2,
        if_pos (show cleanKey k2 = _ from hsame.symm)]
    simp only [initSt, bumpLine, clearPending] at e1 e2
    simp [Parse, runLines, e1, e2, emitEvents, hck1, bumpLine, initSt, clearPending]
  · intro l1 c l2 k1 v1 k2 v2 h1 h2 hc
    have hck1 : cleanKey k1 ≠ [] := KVLine_cleanKey_ne h1
    have hck2 : cleanKey k2 ≠ [] := KVLine_cleanKey_ne h2
    obtain ⟨ht1, hk1, hs1, hb1, he1⟩ := h1
    obtain ⟨ht2, hk2, hs2, hb2, he2⟩ := h2
    have e1 : stepLine initSt l1 =
        Except.ok (emitEvents initSt,
          { bumpLine initSt with
              keyLoc := (bumpLine initSt).loc
              curKey := cleanKey k1
              values := [trimSpace v1] }) := by
      rw [stepLine_kv initSt ht1 hk1 hs1 hb1 he1,
        if_neg (show ¬cleanKey k1 = initSt.curKey from fun hcon => hck1 hcon)]
    have e2 := stepLine_comment
      { bumpLine initSt with
          keyLoc := (bumpLine initSt).loc
          curKey := cleanKey k1
          values := [trimSpace v1] } hc
    have e3 := stepLine_kv (clearPending (bumpLine
      { bumpLine initSt with
          keyLoc := (bumpLine initSt).loc
          curKey := cleanKey k1
          values := [trimSpace v1] })) ht2 hk2 hs2 hb2 he2
    simp only [initSt, bumpLine, clearPending, emitEvents] at e1 e2 e3
    rw [if_neg hck2] at e3
    simp [Parse, runLines, e1, e2, e3, emitEvents, hck1, hck2, bumpLine, initSt,
      clearPending]
  · intro l1 l2 k1 v1 k2 v2 h1 h2 hdiff
    have hck1 : cleanKey k1 ≠ [] := KVLine_cleanKey_ne h1
    have hck2 : cleanKey k2 ≠ [] := KVLine_cleanKey_ne h2
    obtain ⟨ht1, hk1, hs1, hb1, he1⟩ := h1
    obtain ⟨ht2, hk2, hs2, hb2, he2⟩ := h2
    have e1 : stepLine initSt l1 =
        Except.ok (emitEvents initSt,
          { bumpLine initSt with
              keyLoc := (bumpLine initSt).loc
              curKey := cleanKey k1
              values := [trimSpace v1] }) := by
      rw [stepLine_kv initSt ht1 hk1 hs1 hb1 he1,
        if_neg (show ¬cleanKey k1 = initSt.curKey from fun hcon => hck1 hcon)]
    have e2 := stepLine_kv
      { bumpLine initSt with
          keyLoc := (bumpLine initSt).loc
          curKey := cleanKey k1
          values := [trimSpace v1] } ht2 hk2 hs2 hb2 he2
    simp only [initSt, bumpLine, clearPending, emitEvents] at e1 e2
    rw [if_neg (show ¬cleanKey k2 = cleanKey k1 from fun h => hdiff h.symm)] at e2
    simp [Parse, runLines, e1, e2, emitEvents, hck1, hck2, bumpLine, initSt,
      clearPending]

/-- Witness for C2: the adjacent pair `a=1`, `a=2` merges into one event. -/
theorem c2_adjacent_same_key_witness :
    Parse ["a=1".data, "a=2".data] =
      ([Event.keyValue ⟨1, []⟩ (cleanKey "a".data)
          [trimSpace "1".data, trimSpace "2".data]], none) :=
  c2_adjacent_same_key.1 "a=1".data "a=2".data "a".data "1".data "a".data "2".data
    (by decide) (by decide) (by decide)

/-- C1: a `key=` line followed by any mix of blank lines and indented
continuation lines yields exactly one key-value event, whose values are
the trimmed continuation lines in input order; the initial empty value is
replaced by the first real continuation, and blank lines neither flush nor
reset the pending key. -/
theorem c1_continuation_accumulation (l0 k : Str) (rest : List Str)
    (ht : trimSpace l0 = k ++ ['='])
    (hk : k ≠ []) (h1 : k.head? ≠ some ';') (h2 : k.head? ≠ some '[')
    (he : '=' ∉ k)
    (hrest : ∀ l ∈ rest, (trimSpace l).isEmpty = true ∨ IsContLine l)
    (hsome : rest.filter nonBlank ≠ []) :
    Parse (l0 :: rest) =
      ([Event.keyValue ⟨1, []⟩ (cleanKey k)
          ((rest.filter nonBlank).map trimSpace)], none) := by
  have hck : cleanKey k ≠ [] :=
    KVLine_cleanKey_ne (l := l0) (v := []) ⟨ht, hk, h1, h2, he⟩
  have e1 : stepLine initSt l0 =
      Except.ok (emitEvents initSt,
        { bumpLine initSt with
            keyLoc := (bumpLine initSt).loc
            curKey := cleanKey k
            values := [trimSpace []] }) := by
    rw [stepLine_kv initSt ht hk h1 h2 he,
      if_neg (show ¬cleanKey k = initSt.curKey from fun hc => hck hc)]
  have hall : ∀ c ∈ (rest.filter nonBlank).map trimSpace, c ≠ [] := by
    intro c hcmem
    obtain ⟨l, hl, rfl⟩ := List.mem_map.mp hcmem
    have := List.of_mem_filter hl
    simpa [nonBlank, List.isEmpty_iff] using this
  have hconts : (rest.filter nonBlank).map trimSpace ≠ [] := by
    intro hcon
    exact hsome (List.map_eq_nil_iff.mp hcon)
  simp only [initSt, bumpLine] at e1
  have hrun : Parse (l0 :: rest) =
      runLines { bumpLine initSt with
          keyLoc := (bumpLine initSt).loc
          curKey := cleanKey k
          values := [trimSpace []] } rest := by
    simp [Parse, runLines, e1, emitEvents, initSt, bumpLine]
  have hfold : List.foldl contStep [[]]
      ((rest.filter nonBlank).map trimSpace) =
      (rest.filter nonBlank).map trimSpace :=
    foldl_contStep_fresh _ hconts hall
  rw [hrun, runLines_conts rest _ hck hrest]
  simp [hfold, bumpLine, initSt, show trimSpace ([] : Str) = [] from rfl]

/-- Witness for C1: `a=` followed by the continuation ` b`. -/
theorem c1_continuation_accumulation_witness :
    Parse ["a=".data, " b".data] =
      ([Event.keyValue ⟨1, []⟩ (cleanKey "a".data)
          ((([" b".data] : List Str).filter nonBlank).map trimSpace)], none) :=
  c1_continuation_accumulation "a=".data "a".data [" b".data] (by decide)
    (by decide) (by decide) (by decide) (by decide) (by decide) (by decide)

/-- C6: running `Parse` with a fallible handler is the pure event trace cut
at the handler's first error — so when a callback reports error `e`, the
scan halts on the spot: `e` is returned verbatim (tagged `handlerErr`, the
model's rendering of Go returning it unchanged), the calls made are a
prefix of the pure trace ending with the erring call, and no further
callback — in particular no flush of a pending group — happens. -/
theorem c6_handler_error_propagation :
    (∀ (ε : Type) (h : GoHandler ε) (lines : List Str),
      ParseH h lines =
        match (deliver h [] (Parse lines).1).2 with
        | some e => ((deliver h [] (Parse lines).1).1, some (ParseErr.handlerErr e))
        | none => ((Parse lines).1, (Parse lines).2.map ParseErr.syntaxErr)) ∧
    (∀ (ε : Type) (h : GoHandler ε) (lines : List Str) (e : ε),
      (ParseH h lines).2 = some (ParseErr.handlerErr e) →
        ∃ ds ev, (ParseH h lines).1 = ds ++ [ev] ∧ h ds ev = some e ∧
          (ParseH h lines).1 <+: (Parse lines).1) := by
  constructor
  · intro ε h lines
    exact runLinesH_spec h lines [] initSt
  · intro ε h lines e hsome
    have hspec : ParseH h lines =
        match (deliver h [] (Parse lines).1).2 with
        | some e => ((deliver h [] (Parse lines).1).1, some (ParseErr.handlerErr e))
        | none => ((Parse lines).1, (Parse lines).2.map ParseErr.syntaxErr) :=
      runLinesH_spec h lines [] initSt
    cases hd : (deliver h [] (Parse lines).1).2 with
    | none =>
      rw [hspec, hd] at hsome
      cases hpp : (Parse lines).2 <;> simp [hpp] at hsome
    | some e0 =>
      rw [hspec, hd] at hsome
      simp only [Option.some.injEq, ParseErr.handlerErr.injEq] at hsome
      subst hsome
      have hP1 : (ParseH h lines).1 = (deliver h [] (Parse lines).1).1 := by
        rw [hspec, hd]
      obtain ⟨ds, ev, h1d, h2d, h3d⟩ :=
        deliver_some h (Parse lines).1 [] e0 hd
      refine ⟨ds, ev, ?_, ?_, ?_⟩
      · rw [hP1, h1d]
      · simpa using h2d
      · rw [hP1]; exact h3d

/-- Witness for C6: a handler that fails with `0` on its first call halts
the scan of `"foo"` after exactly that one callback. -/
theorem c6_handler_error_propagation_witness :
    ∃ ds ev, (ParseH (fun _ _ => some 0) ["foo".data]).1 = ds ++ [ev] ∧
      (fun (_ : List Event) (_ : Event) => some 0) ds ev = some 0 ∧
      (ParseH (fun _ _ => some 0) ["foo".data]).1 <+: (Parse ["foo".data]).1 :=
  c6_handler_error_propagation.2 Nat (fun _ _ => some 0) ["foo".data] 0 (by decide)
